import Mathlib

/-!
Verification development for the buildkite/go-pipeline library.

The Go code is shallowly embedded: Go maps with string keys are represented as
canonical (key-sorted) association lists, Go string comparison is modelled by a
lexicographic comparison on character lists, fallible Go functions return
Except values, and the external JWS/JCS cryptographic backend is modelled as an
ideal signature scheme in which a signature value determinately binds the
signing key and the canonical payload.
-/

namespace GoPipeline

/-- Lexicographic comparison of character lists, modelling Go's built-in
string ordering used by sort.Strings. -/
def ltCharList : List Char → List Char → Bool
  | [], [] => false
  | [], _ :: _ => true
  | _ :: _, [] => false
  | c :: cs, d :: ds => c < d || (c = d && ltCharList cs ds)

/-- String comparison used for sorted canonical maps, modelling Go's
string less-than. -/
def strLt (a b : String) : Bool := ltCharList a.data b.data

theorem ltCharList_trichotomy (a b : List Char) (hab : ltCharList a b = false)
    (hba : ltCharList b a = false) : a = b := by
  induction a generalizing b with
  | nil => cases b with
    | nil => rfl
    | cons d ds => simp [ltCharList] at hab
  | cons c cs ih =>
    cases b with
    | nil => simp [ltCharList] at hba
    | cons d ds =>
      simp only [ltCharList, Bool.or_eq_false_iff, Bool.and_eq_false_iff] at hab hba
      obtain ⟨h1, h2⟩ := hab
      obtain ⟨h3, h4⟩ := hba
      have hnlt1 : ¬ c < d := by simpa using h1
      have hnlt2 : ¬ d < c := by simpa using h3
      have hcd : c = d := le_antisymm (not_lt.mp hnlt2) (not_lt.mp hnlt1)
      subst hcd
      rcases h2 with h2 | h2
      · simp at h2
      rcases h4 with h4 | h4
      · simp at h4
      rw [ih ds h2 h4]

theorem ltCharList_trans {a b c : List Char} (hab : ltCharList a b = true)
    (hbc : ltCharList b c = true) : ltCharList a c = true := by
  induction a generalizing b c with
  | nil =>
    cases b with
    | nil => simp [ltCharList] at hab
    | cons d ds =>
      cases c with
      | nil => simp [ltCharList] at hbc
      | cons e es => simp [ltCharList]
  | cons x xs ih =>
    cases b with
    | nil => simp [ltCharList] at hab
    | cons d ds =>
      cases c with
      | nil => simp [ltCharList] at hbc
      | cons e es =>
        simp only [ltCharList, Bool.or_eq_true, Bool.and_eq_true, decide_eq_true_eq] at hab hbc ⊢
        rcases hab with hab | ⟨rfl, hab⟩
        · rcases hbc with hbc | ⟨rfl, hbc⟩
          · exact Or.inl (lt_trans hab hbc)
          · exact Or.inl hab
        · rcases hbc with hbc | ⟨rfl, hbc⟩
          · exact Or.inl hbc
          · exact Or.inr ⟨rfl, ih hab hbc⟩

theorem ltCharList_irrefl (a : List Char) : ltCharList a a = false := by
  induction a with
  | nil => rfl
  | cons c cs ih => simp [ltCharList, ih]

theorem strLt_trichotomy {a b : String} (hab : strLt a b = false)
    (hba : strLt b a = false) : a = b :=
  String.ext (ltCharList_trichotomy a.data b.data hab hba)

theorem strLt_trans {a b c : String} (hab : strLt a b = true)
    (hbc : strLt b c = true) : strLt a c = true :=
  ltCharList_trans hab hbc

theorem strLt_irrefl (a : String) : strLt a a = false :=
  ltCharList_irrefl a.data

theorem strLt_ne {a b : String} (h : strLt a b = true) : a ≠ b := by
  intro hab
  subst hab
  rw [strLt_irrefl] at h
  exact Bool.false_ne_true h

theorem strLt_total {a b : String} (hne : a ≠ b) :
    strLt a b = true ∨ strLt b a = true := by
  by_cases h1 : strLt a b = true
  · exact Or.inl h1
  · by_cases h2 : strLt b a = true
    · exact Or.inr h2
    · exact absurd (strLt_trichotomy (Bool.eq_false_iff.mpr h1) (Bool.eq_false_iff.mpr h2)) hne

/-- Association-list lookup, modelling Go map indexing. -/
def lookupStr {α : Type} : List (String × α) → String → Option α
  | [], _ => none
  | (k, v) :: rest, q => if k = q then some v else lookupStr rest q

/-- Key-sorted insertion, modelling Go map assignment on the canonical
(sorted) representation of a Go map with string keys. -/
def insertSorted {α : Type} (k : String) (v : α) : List (String × α) → List (String × α)
  | [] => [(k, v)]
  | (k', v') :: rest =>
    if strLt k k' then (k, v) :: (k', v') :: rest
    else if k = k' then (k, v) :: rest
    else (k', v') :: insertSorted k v rest

/-- Keys of an association list, in order. -/
def keysOf {α : Type} (m : List (String × α)) : List String := m.map Prod.fst

/-- The key k is below the first key of the list (or the list is empty). -/
def ltHead {α : Type} (k : String) : List (String × α) → Bool
  | [] => true
  | p :: _ => strLt k p.1

/-- Canonical-map invariant: keys strictly ascending. This is the
representation invariant for embedded Go maps. -/
def sortedKeysB {α : Type} : List (String × α) → Bool
  | [] => true
  | p :: rest => ltHead p.1 rest && sortedKeysB rest

/-- The string x is below the first element of the list (or it is empty). -/
def ltHeadS (x : String) : List String → Bool
  | [] => true
  | y :: _ => strLt x y

/-- Strictly ascending list of strings (sorted and duplicate-free). -/
def sortedStrB : List String → Bool
  | [] => true
  | x :: rest => ltHeadS x rest && sortedStrB rest

theorem lookupStr_nil {α : Type} (q : String) : lookupStr ([] : List (String × α)) q = none := rfl

theorem lookupStr_cons {α : Type} (k q : String) (v : α) (m : List (String × α)) :
    lookupStr ((k, v) :: m) q = if k = q then some v else lookupStr m q := rfl

theorem insertSorted_nil {α : Type} (k : String) (v : α) :
    insertSorted k v ([] : List (String × α)) = [(k, v)] := rfl

theorem insertSorted_cons {α : Type} (k k' : String) (v v' : α) (m : List (String × α)) :
    insertSorted k v ((k', v') :: m) =
      if strLt k k' then (k, v) :: (k', v') :: m
      else if k = k' then (k, v) :: m
      else (k', v') :: insertSorted k v m := rfl

theorem keysOf_nil {α : Type} : keysOf ([] : List (String × α)) = [] := rfl

theorem keysOf_cons {α : Type} (p : String × α) (m : List (String × α)) :
    keysOf (p :: m) = p.1 :: keysOf m := rfl

theorem ltHead_nil {α : Type} (k : String) : ltHead k ([] : List (String × α)) = true := rfl

theorem ltHead_cons {α : Type} (k : String) (p : String × α) (m : List (String × α)) :
    ltHead k (p :: m) = strLt k p.1 := rfl

theorem sortedKeysB_nil {α : Type} : sortedKeysB ([] : List (String × α)) = true := rfl

theorem sortedKeysB_cons {α : Type} (p : String × α) (m : List (String × α)) :
    sortedKeysB (p :: m) = (ltHead p.1 m && sortedKeysB m) := rfl

theorem ltHeadS_cons (x y : String) (l : List String) :
    ltHeadS x (y :: l) = strLt x y := rfl

theorem sortedStrB_cons (x : String) (l : List String) :
    sortedStrB (x :: l) = (ltHeadS x l && sortedStrB l) := rfl

theorem lookupStr_insertSorted {α : Type} (k q : String) (v : α)
    (m : List (String × α)) :
    lookupStr (insertSorted k v m) q = if k = q then some v else lookupStr m q := by
  induction m with
  | nil => rw [insertSorted_nil, lookupStr_cons, lookupStr_nil]
  | cons p rest ih =>
    obtain ⟨k', v'⟩ := p
    rw [insertSorted_cons]
    by_cases h1 : strLt k k' = true
    · rw [if_pos h1, lookupStr_cons]
    · rw [if_neg h1]
      by_cases h2 : k = k'
      · rw [if_pos h2, lookupStr_cons, lookupStr_cons]
        subst h2
        by_cases h3 : k = q
        · simp only [if_pos h3]
        · simp only [if_neg h3]
      · rw [if_neg h2, lookupStr_cons, lookupStr_cons, ih]
        by_cases h3 : k' = q
        · subst h3
          have h4 : ¬ (k = k') := h2
          rw [if_pos rfl, if_pos rfl, if_neg h4]
        · rw [if_neg h3, if_neg h3]

theorem ltHead_insertSorted {α : Type} {k₀ k : String} (v : α)
    {m : List (String × α)} (hk : strLt k₀ k = true) (hm : ltHead k₀ m = true) :
    ltHead k₀ (insertSorted k v m) = true := by
  cases m with
  | nil => rw [insertSorted_nil, ltHead_cons]; exact hk
  | cons p rest =>
    obtain ⟨q, w⟩ := p
    rw [insertSorted_cons]
    by_cases h1 : strLt k q = true
    · rw [if_pos h1, ltHead_cons]; exact hk
    · rw [if_neg h1]
      by_cases h2 : k = q
      · rw [if_pos h2, ltHead_cons]; exact hk
      · rw [if_neg h2, ltHead_cons]
        rw [ltHead_cons] at hm
        exact hm

theorem sortedKeysB_insertSorted {α : Type} (k : String) (v : α)
    {m : List (String × α)} (h : sortedKeysB m = true) :
    sortedKeysB (insertSorted k v m) = true := by
  induction m with
  | nil => rfl
  | cons p rest ih =>
    obtain ⟨k', v'⟩ := p
    rw [sortedKeysB_cons, Bool.and_eq_true] at h
    obtain ⟨hhead, hrest⟩ := h
    rw [insertSorted_cons]
    by_cases h1 : strLt k k' = true
    · rw [if_pos h1, sortedKeysB_cons, ltHead_cons, sortedKeysB_cons, h1, hhead, hrest]
      rfl
    · rw [if_neg h1]
      by_cases h2 : k = k'
      · subst h2
        rw [if_pos rfl, sortedKeysB_cons, hrest, Bool.and_true]
        exact hhead
      · have h3 : strLt k' k = true := by
          rcases strLt_total (fun h => h2 h.symm : k' ≠ k) with h | h
          · exact h
          · exact absurd h h1
        rw [if_neg h2, sortedKeysB_cons, Bool.and_eq_true]
        exact ⟨ltHead_insertSorted v h3 hhead, ih hrest⟩

theorem sortedKeysB_tail {α : Type} {p : String × α} {m : List (String × α)}
    (h : sortedKeysB (p :: m) = true) : sortedKeysB m = true := by
  rw [sortedKeysB_cons, Bool.and_eq_true] at h
  exact h.2

theorem strLt_of_mem_keysOf {α : Type} {k : String} {v : α} {m : List (String × α)}
    (h : sortedKeysB ((k, v) :: m) = true) {q : String} (hq : q ∈ keysOf m) :
    strLt k q = true := by
  induction m generalizing v with
  | nil => rw [keysOf_nil] at hq; simp at hq
  | cons p rest ih =>
    obtain ⟨k₁, v₁⟩ := p
    rw [sortedKeysB_cons, Bool.and_eq_true, ltHead_cons, sortedKeysB_cons, Bool.and_eq_true] at h
    obtain ⟨h1, h2, h3⟩ := h
    rw [keysOf_cons, List.mem_cons] at hq
    rcases hq with h4 | h4
    · subst h4; exact h1
    · have h5 : sortedKeysB ((k, v) :: rest) = true := by
        rw [sortedKeysB_cons, Bool.and_eq_true]
        refine ⟨?_, h3⟩
        cases rest with
        | nil => rfl
        | cons p₂ t =>
          rw [ltHead_cons] at h2 ⊢
          exact strLt_trans h1 h2
      exact ih h5 h4

theorem lookupStr_of_mem {α : Type} {k : String} {v : α} {m : List (String × α)}
    (hs : sortedKeysB m = true) (h : (k, v) ∈ m) : lookupStr m k = some v := by
  induction m with
  | nil => simp at h
  | cons p rest ih =>
    obtain ⟨k', v'⟩ := p
    rcases List.mem_cons.mp h with h0 | h0
    · injection h0 with h1 h2
      subst h1; subst h2
      rw [lookupStr_cons, if_pos rfl]
    · have hk : k ∈ keysOf rest := by
        have := List.mem_map_of_mem Prod.fst h0
        simpa [keysOf] using this
      have hlt : strLt k' k = true := strLt_of_mem_keysOf hs hk
      have hne : k' ≠ k := strLt_ne hlt
      rw [lookupStr_cons, if_neg hne]
      exact ih (sortedKeysB_tail hs) h0

theorem mem_of_lookupStr {α : Type} {k : String} {v : α} {m : List (String × α)}
    (h : lookupStr m k = some v) : (k, v) ∈ m := by
  induction m with
  | nil => rw [lookupStr_nil] at h; cases h
  | cons p rest ih =>
    obtain ⟨k', v'⟩ := p
    rw [lookupStr_cons] at h
    by_cases h0 : k' = k
    · subst h0
      rw [if_pos rfl] at h
      obtain rfl := Option.some.inj h
      exact List.mem_cons_self _ _
    · rw [if_neg h0] at h
      exact List.mem_cons_of_mem _ (ih h)

theorem mem_keysOf_iff_isSome {α : Type} (m : List (String × α)) (q : String) :
    q ∈ keysOf m ↔ (lookupStr m q).isSome = true := by
  induction m with
  | nil => rw [keysOf_nil, lookupStr_nil]; simp
  | cons p rest ih =>
    obtain ⟨k, v⟩ := p
    rw [keysOf_cons, List.mem_cons, lookupStr_cons]
    by_cases h : k = q
    · subst h
      rw [if_pos rfl]
      simp
    · have h2 : ¬ (q = k) := fun hh => h hh.symm
      rw [if_neg h]
      simp only [h2, false_or]
      exact ih

/-- Canonicalization of an association list into the canonical sorted map
representation; models the key-sorting performed by RFC 8785 (JCS). -/
def canonicalize {α : Type} (m : List (String × α)) : List (String × α) :=
  m.foldr (fun p acc => insertSorted p.1 p.2 acc) []

theorem insertSorted_front {α : Type} {k : String} (v : α) {m : List (String × α)}
    (h : ltHead k m = true) : insertSorted k v m = (k, v) :: m := by
  cases m with
  | nil => rfl
  | cons p rest =>
    obtain ⟨q, w⟩ := p
    rw [ltHead_cons] at h
    rw [insertSorted_cons, if_pos h]

theorem canonicalize_sorted_id {α : Type} {m : List (String × α)}
    (h : sortedKeysB m = true) : canonicalize m = m := by
  induction m with
  | nil => rfl
  | cons p rest ih =>
    obtain ⟨k, v⟩ := p
    rw [sortedKeysB_cons, Bool.and_eq_true] at h
    obtain ⟨hhead, hrest⟩ := h
    show insertSorted k v (canonicalize rest) = (k, v) :: rest
    rw [ih hrest]
    exact insertSorted_front v hhead

/-- Ascending insertion of a string into a list, the inner loop of an
insertion sort that models Go's sort.Strings. -/
def insertStrLe (x : String) : List String → List String
  | [] => [x]
  | y :: rest => if strLt y x then y :: insertStrLe x rest else x :: y :: rest

/-- Insertion sort on strings, modelling sort.Strings from the Go standard
library (both produce the unique ascending reordering). -/
def sortStrings : List String → List String
  | [] => []
  | x :: rest => insertStrLe x (sortStrings rest)

theorem sortStrings_of_sortedStr {l : List String} (h : sortedStrB l = true) :
    sortStrings l = l := by
  induction l with
  | nil => rfl
  | cons x rest ih =>
    rw [sortedStrB_cons, Bool.and_eq_true] at h
    obtain ⟨hhead, hrest⟩ := h
    show insertStrLe x (sortStrings rest) = x :: rest
    rw [ih hrest]
    cases rest with
    | nil => rfl
    | cons y t =>
      rw [ltHeadS_cons] at hhead
      have hf : strLt y x = false := by
        by_cases hc : strLt y x = true
        · exact absurd (strLt_ne (strLt_trans hhead hc)) (by simp)
        · exact Bool.eq_false_iff.mpr hc
      show (if strLt y x then y :: insertStrLe x t else x :: y :: t) = x :: y :: t
      rw [hf]
      rfl

theorem sortedStrB_keysOf {α : Type} {m : List (String × α)}
    (h : sortedKeysB m = true) : sortedStrB (keysOf m) = true := by
  induction m with
  | nil => rfl
  | cons p rest ih =>
    rw [sortedKeysB_cons, Bool.and_eq_true] at h
    obtain ⟨hhead, hrest⟩ := h
    rw [keysOf_cons, sortedStrB_cons, Bool.and_eq_true]
    refine ⟨?_, ih hrest⟩
    cases rest with
    | nil => rfl
    | cons q t =>
      rw [keysOf_cons, ltHeadS_cons]
      rw [ltHead_cons] at hhead
      exact hhead

/-- Dynamic values (Go's any) that can appear in a map of signed values.
A step env is kept as its own constructor so that the type assertion
performed by Sign and Verify on the env entry can be modelled. -/
inductive Value where
  | str : String → Value
  | envMap : List (String × String) → Value
  | json : String → Value
  | null : Value
deriving DecidableEq

/-- A signing key: the algorithm it carries and its key id. The cryptographic
key material is abstracted away (ideal signature model). -/
structure SigKey where
  alg : String
  keyId : String
deriving DecidableEq

/-- The canonical payload: the algorithm string and the canonical (key-sorted)
value mapping, modelling the JCS (RFC 8785) bytes of the alg/values object
built by canonicalPayload in signature/sign.go. -/
def canonicalPayload (alg : String) (values : List (String × Value)) :
    String × List (String × Value) :=
  (alg, canonicalize values)

/-- An ideal detached-payload JWS in compact form: the signature value binds
the signing key and the canonical payload. -/
structure JWSValue where
  key : SigKey
  payload : String × List (String × Value)
deriving DecidableEq

/-- The pipeline.Signature struct: algorithm, sorted signed field names, and
the detached JWS value. -/
structure Signature where
  algorithm : String
  signedFields : List String
  value : JWSValue
deriving DecidableEq

/-- Error values produced by the signature engine. Go wraps errors in message
strings; errors.Is-style identity of the error kind is what is modelled. -/
inductive SignErr where
  | fielderErr (msg : String)
  | noFieldsToSign
  | signingRefusedUnknownStepType
  | signatureCoversNoFields
  | obtainingValues (msg : String)
  | missingKey (k : String)
  | verificationFailed
deriving DecidableEq

/-- The SignedFielder interface from signature/sign.go: a default field set
for signing, and a lookup of values for a requested field list. -/
structure SignedFielder where
  signedFields : Except String (List (String × Value))
  valuesForFields : List String → Except String (List (String × Value))

/-- The type assertion objEnv of Sign and Verify in signature/sign.go:
a failed assertion yields a nil map (on which every lookup misses). -/
def asEnvMap : Option Value → List (String × String)
  | some (.envMap m) => m
  | _ => []

/-- The env-namespacing loop shared by Sign and Verify in signature/sign.go:
each pipeline env entry whose key is absent from the object env is added to
the values under the key env:: followed by the entry key. -/
def addEnvValues (objEnv env : List (String × String))
    (values : List (String × Value)) : List (String × Value) :=
  env.foldl (fun acc p =>
    if (lookupStr objEnv p.1).isSome then acc
    else insertSorted ("env::" ++ p.1) (Value.str p.2) acc) values

/-- Ideal JWS signing: the signature value records the key and the payload. -/
def jwsSign (key : SigKey) (payload : String × List (String × Value)) : JWSValue :=
  ⟨key, payload⟩

/-- Ideal JWS verification against a key set with a detached payload:
succeeds exactly when the payload matches and the signing key is in the set. -/
def jwsVerify (keySet : List SigKey) (v : JWSValue)
    (payload : String × List (String × Value)) : Bool :=
  decide (v.key ∈ keySet) && decide (v.payload = payload)

/-- Sign, translated from Sign in signature/sign.go: obtain the signed fields,
refuse an empty value set, namespace the caller env, extract and sort the
field names, and produce the detached JWS over the canonical payload. -/
def Sign (key : SigKey) (sf : SignedFielder) (env : List (String × String)) :
    Except SignErr Signature :=
  match sf.signedFields with
  | .error e => .error (.fielderErr e)
  | .ok values =>
    if values = [] then .error .noFieldsToSign
    else
      let objEnv := asEnvMap (lookupStr values "env")
      let withEnv := addEnvValues objEnv env values
      let fields := sortStrings (keysOf withEnv)
      .ok ⟨key.alg, fields, jwsSign key (canonicalPayload key.alg withEnv)⟩

/-- The requireKeys helper from signature/sign.go: a copy of the map holding
exactly the requested keys, failing if any is missing. The copy is built in
requested-key order (the Go original builds an unordered map; the payload is
canonicalized afterwards in either case). -/
def requireKeys (m : List (String × Value)) :
    List String → Except SignErr (List (String × Value))
  | [] => .ok []
  | k :: rest =>
    match lookupStr m k with
    | none => .error (.missingKey k)
    | some v =>
      match requireKeys m rest with
      | .error e => .error e
      | .ok out => .ok ((k, v) :: out)

/-- Verify, translated from Verify in signature/sign.go: reject a signature
covering no fields, obtain values for the signed fields, namespace the
caller env, restrict to the signed fields, and verify the detached JWS over
the canonical payload against the key set. -/
def Verify (s : Signature) (keySet : List SigKey) (sf : SignedFielder)
    (env : List (String × String)) : Except SignErr Unit :=
  if s.signedFields = [] then .error .signatureCoversNoFields
  else
    match sf.valuesForFields s.signedFields with
    | .error e => .error (.obtainingValues e)
    | .ok values =>
      let objEnv := asEnvMap (lookupStr values "env")
      let withEnv := addEnvValues objEnv env values
      match requireKeys withEnv s.signedFields with
      | .error e => .error e
      | .ok required =>
        if jwsVerify keySet s.value (canonicalPayload s.algorithm required)
        then .ok () else .error .verificationFailed

/-- A command step of the pipeline schema: the fields that take part in
signing, plus the signature slot that SignSteps fills in. Plugins and matrix
are carried as dynamic values. -/
structure CommandStep where
  command : String
  env : List (String × String)
  plugins : Value
  matrix : Value
  signature : Option Signature
deriving DecidableEq

/-- Modelled from the spec: CommandStepWithInvariants (signature/steps.go,
not under src) pairs a command step with the pipeline-invariant repository
URL, as described in section 4.5 of the spec. -/
structure CommandStepWithInvariants where
  step : CommandStep
  repositoryURL : String

/-- The field names a command step signs by default. -/
def baseFieldNames : List String :=
  ["command", "env", "matrix", "plugins", "repository_url"]

/-- Modelled from the spec: SignedFields of CommandStepWithInvariants (not
under src) returns command, env, matrix, plugins and repository_url, per
section 4.5 of the spec; nil and empty values are kept distinct. -/
def signedFieldsMap (c : CommandStepWithInvariants) : List (String × Value) :=
  [("command", .str c.step.command), ("env", .envMap c.step.env),
   ("matrix", c.step.matrix), ("plugins", c.step.plugins),
   ("repository_url", .str c.repositoryURL)]

/-- Boolean test that a field name lies in the env:: namespace, modelling
the strings.HasPrefix check on the env namespace marker. -/
def isEnvNamespaced (f : String) : Bool := "env::".data.isPrefixOf f.data

/-- Modelled from the spec: ValuesForFields of CommandStepWithInvariants (not
under src) must return a value for every requested field or fail; requested
env:: fields are supplied later by Verify from the caller env, unknown
fields are rejected, and the mandatory step fields must all be requested
(sections 4.5 of the spec and the SignedFielder doc comment in
signature/sign.go). -/
def valuesForFields (c : CommandStepWithInvariants) (fields : List String) :
    Except String (List (String × Value)) :=
  if fields.all (fun f => decide (f ∈ baseFieldNames) || isEnvNamespaced f) then
    if baseFieldNames.all (fun n => decide (n ∈ fields)) then
      .ok ((signedFieldsMap c).filter (fun p => decide (p.1 ∈ fields)))
    else .error "one or more required fields are not present"
  else .error "unknown field"

/-- The SignedFielder implementation of a command step with invariants. -/
def CommandStepWithInvariants.toFielder (c : CommandStepWithInvariants) : SignedFielder :=
  ⟨.ok (signedFieldsMap c), valuesForFields c⟩

theorem addEnvValues_nil (objEnv : List (String × String)) (values : List (String × Value)) :
    addEnvValues objEnv [] values = values := rfl

theorem addEnvValues_cons (objEnv : List (String × String)) (p : String × String)
    (env : List (String × String)) (values : List (String × Value)) :
    addEnvValues objEnv (p :: env) values =
      addEnvValues objEnv env
        (if (lookupStr objEnv p.1).isSome then values
         else insertSorted ("env::" ++ p.1) (Value.str p.2) values) := rfl

theorem envKey_inj {a b : String} (h : "env::" ++ a = "env::" ++ b) : a = b := by
  have h' := congrArg String.data h
  simp only [String.data_append] at h'
  exact String.ext (by simpa using h')

theorem envKey_ne_base {k b : String} (hb : b ∈ baseFieldNames) : "env::" ++ k ≠ b := by
  intro h
  have h' := congrArg String.data h
  simp only [String.data_append] at h'
  simp only [baseFieldNames, List.mem_cons, List.not_mem_nil, or_false] at hb
  rcases hb with rfl | rfl | rfl | rfl | rfl <;> simp at h'

theorem isEnvNamespaced_append (k : String) : isEnvNamespaced ("env::" ++ k) = true := by
  show "env::".data.isPrefixOf ("env::".data ++ k.data) = true
  simp [List.isPrefixOf_iff_prefix]

theorem lookupStr_addEnvValues_of_no_envkey {objEnv env : List (String × String)}
    {values : List (String × Value)} {q : String}
    (h : ∀ p ∈ env, "env::" ++ p.1 ≠ q) :
    lookupStr (addEnvValues objEnv env values) q = lookupStr values q := by
  induction env generalizing values with
  | nil => rfl
  | cons p rest ih =>
    rw [addEnvValues_cons]
    rw [ih (fun p2 hp2 => h p2 (List.mem_cons_of_mem _ hp2))]
    by_cases hc : (lookupStr objEnv p.1).isSome = true
    · rw [if_pos hc]
    · rw [if_neg hc, lookupStr_insertSorted, if_neg (h p (List.mem_cons_self _ _))]

theorem lookupStr_addEnvValues_mem {objEnv env : List (String × String)}
    {values : List (String × Value)} {k : String} {v : String}
    (hs : sortedKeysB env = true) (hmem : (k, v) ∈ env)
    (hobj : lookupStr objEnv k = none) :
    lookupStr (addEnvValues objEnv env values) ("env::" ++ k) = some (.str v) := by
  induction env generalizing values with
  | nil => simp at hmem
  | cons p rest ih =>
    obtain ⟨k₁, v₁⟩ := p
    rw [addEnvValues_cons]
    rcases List.mem_cons.mp hmem with h0 | h0
    · injection h0 with h1 h2
      subst h1; subst h2
      have hcond : ¬ ((lookupStr objEnv k).isSome = true) := by
        rw [hobj]; simp
      rw [if_neg hcond]
      have hrest : ∀ p2 ∈ rest, "env::" ++ p2.1 ≠ "env::" ++ k := by
        intro p2 hp2 heq
        have hk2 : p2.1 = k := envKey_inj heq
        have hmk : p2.1 ∈ keysOf rest := by
          rw [keysOf]
          exact List.mem_map_of_mem Prod.fst hp2
        have hlt : strLt k p2.1 = true := strLt_of_mem_keysOf hs hmk
        exact strLt_ne hlt hk2.symm
      rw [lookupStr_addEnvValues_of_no_envkey hrest, lookupStr_insertSorted, if_pos rfl]
    · exact ih (sortedKeysB_tail hs) h0

theorem isSome_lookupStr_addEnvValues {objEnv env : List (String × String)}
    {values : List (String × Value)} {q : String}
    (h : (lookupStr (addEnvValues objEnv env values) q).isSome = true) :
    (lookupStr values q).isSome = true ∨
      ∃ k v, (k, v) ∈ env ∧ lookupStr objEnv k = none ∧ q = "env::" ++ k := by
  induction env generalizing values with
  | nil => exact Or.inl h
  | cons p rest ih =>
    rw [addEnvValues_cons] at h
    rcases ih h with h0 | h0
    · by_cases hc : (lookupStr objEnv p.1).isSome = true
      · rw [if_pos hc] at h0
        exact Or.inl h0
      · rw [if_neg hc, lookupStr_insertSorted] at h0
        by_cases hq : "env::" ++ p.1 = q
        · refine Or.inr ⟨p.1, p.2, List.mem_cons_self _ _, ?_, hq.symm⟩
          exact Option.not_isSome_iff_eq_none.mp hc
        · rw [if_neg hq] at h0
          exact Or.inl h0
    · obtain ⟨k, v, hk, ho, hq⟩ := h0
      exact Or.inr ⟨k, v, List.mem_cons_of_mem _ hk, ho, hq⟩

theorem isSome_lookupStr_addEnvValues_mono {objEnv env : List (String × String)}
    {values : List (String × Value)} {q : String}
    (h : (lookupStr values q).isSome = true) :
    (lookupStr (addEnvValues objEnv env values) q).isSome = true := by
  induction env generalizing values with
  | nil => exact h
  | cons p rest ih =>
    rw [addEnvValues_cons]
    apply ih
    by_cases hc : (lookupStr objEnv p.1).isSome = true
    · rw [if_pos hc]; exact h
    · rw [if_neg hc, lookupStr_insertSorted]
      by_cases hq : "env::" ++ p.1 = q
      · rw [if_pos hq]; rfl
      · rw [if_neg hq]; exact h

theorem sortedKeysB_addEnvValues {objEnv env : List (String × String)}
    {values : List (String × Value)} (h : sortedKeysB values = true) :
    sortedKeysB (addEnvValues objEnv env values) = true := by
  induction env generalizing values with
  | nil => exact h
  | cons p rest ih =>
    rw [addEnvValues_cons]
    apply ih
    by_cases hc : (lookupStr objEnv p.1).isSome = true
    · rw [if_pos hc]; exact h
    · rw [if_neg hc]
      exact sortedKeysB_insertSorted _ _ h

theorem requireKeys_nil (m : List (String × Value)) : requireKeys m [] = .ok [] := rfl

theorem requireKeys_cons (m : List (String × Value)) (k : String) (ks : List String) :
    requireKeys m (k :: ks) =
      match lookupStr m k with
      | none => .error (.missingKey k)
      | some v =>
        match requireKeys m ks with
        | .error e => .error e
        | .ok out => .ok ((k, v) :: out) := rfl

theorem requireKeys_eq_of_agree {m V : List (String × Value)}
    (hs : sortedKeysB V = true)
    (hagree : ∀ q, q ∈ keysOf V → lookupStr m q = lookupStr V q) :
    requireKeys m (keysOf V) = .ok V := by
  induction V with
  | nil => rfl
  | cons p rest ih =>
    obtain ⟨k, v⟩ := p
    have h1 : lookupStr m k = some v := by
      rw [hagree k (by rw [keysOf_cons]; exact List.mem_cons_self _ _), lookupStr_cons,
        if_pos rfl]
    have h2 : requireKeys m (keysOf rest) = .ok rest := by
      apply ih (sortedKeysB_tail hs)
      intro q hq
      rw [hagree q (by rw [keysOf_cons]; exact List.mem_cons_of_mem _ hq), lookupStr_cons,
        if_neg (strLt_ne (strLt_of_mem_keysOf hs hq))]
    rw [keysOf_cons, requireKeys_cons, h1, h2]

theorem keysOf_signedFieldsMap (c : CommandStepWithInvariants) :
    keysOf (signedFieldsMap c) = baseFieldNames := rfl

theorem sortedKeysB_signedFieldsMap (c : CommandStepWithInvariants) :
    sortedKeysB (signedFieldsMap c) = true := rfl

theorem asEnvMap_signedFieldsMap (c : CommandStepWithInvariants) :
    asEnvMap (lookupStr (signedFieldsMap c) "env") = c.step.env := rfl

theorem isSome_lookup_signedFieldsMap (c : CommandStepWithInvariants) {n : String}
    (hn : n ∈ baseFieldNames) : (lookupStr (signedFieldsMap c) n).isSome = true := by
  rw [← keysOf_signedFieldsMap c] at hn
  exact (mem_keysOf_iff_isSome _ n).mp hn

/-- C1: for every command step and signing environment env, signing the step
with env and verifying the result against the same step under any
verification environment that is a superset of env succeeds. -/
theorem c1_sign_verify_env_superset
    (c : CommandStepWithInvariants) (key : SigKey)
    (env verifyEnv : List (String × String))
    (hsenv : sortedKeysB env = true)
    (hsver : sortedKeysB verifyEnv = true)
    (hsub : ∀ k v, lookupStr env k = some v → lookupStr verifyEnv k = some v)
    (sig : Signature)
    (hsig : Sign key c.toFielder env = .ok sig) :
    Verify sig [key] c.toFielder verifyEnv = .ok () := by
  have hde : Sign key c.toFielder env =
      .ok ⟨key.alg,
        sortStrings (keysOf (addEnvValues c.step.env env (signedFieldsMap c))),
        jwsSign key (canonicalPayload key.alg
          (addEnvValues c.step.env env (signedFieldsMap c)))⟩ := rfl
  rw [hde] at hsig
  have hsig2 := (Except.ok.inj hsig).symm
  subst hsig2
  have hsortV : sortedKeysB (addEnvValues c.step.env env (signedFieldsMap c)) = true :=
    sortedKeysB_addEnvValues (sortedKeysB_signedFieldsMap c)
  have hfields : sortStrings (keysOf (addEnvValues c.step.env env (signedFieldsMap c))) =
      keysOf (addEnvValues c.step.env env (signedFieldsMap c)) :=
    sortStrings_of_sortedStr (sortedStrB_keysOf hsortV)
  rw [hfields]
  -- membership of the base field names in the signed field list
  have hbase : ∀ n ∈ baseFieldNames,
      n ∈ keysOf (addEnvValues c.step.env env (signedFieldsMap c)) := by
    intro n hn
    exact (mem_keysOf_iff_isSome _ n).mpr
      (isSome_lookupStr_addEnvValues_mono (isSome_lookup_signedFieldsMap c hn))
  have hne : keysOf (addEnvValues c.step.env env (signedFieldsMap c)) ≠ [] :=
    List.ne_nil_of_mem (hbase "command" (by decide))
  -- the step returns exactly its signed fields for the requested field list
  have hvff : valuesForFields c (keysOf (addEnvValues c.step.env env (signedFieldsMap c))) =
      .ok (signedFieldsMap c) := by
    unfold valuesForFields
    have hcond1 : (keysOf (addEnvValues c.step.env env (signedFieldsMap c))).all
        (fun f => decide (f ∈ baseFieldNames) || isEnvNamespaced f) = true := by
      apply List.all_eq_true.mpr
      intro f hf
      have hsome := (mem_keysOf_iff_isSome _ f).mp hf
      rcases isSome_lookupStr_addEnvValues hsome with h0 | h0
      · have hfb : f ∈ baseFieldNames := by
          rw [← keysOf_signedFieldsMap c]
          exact (mem_keysOf_iff_isSome _ f).mpr h0
        simp [hfb]
      · obtain ⟨k, v, hk, ho, rfl⟩ := h0
        simp [isEnvNamespaced_append]
    have hcond2 : baseFieldNames.all
        (fun n => decide (n ∈ keysOf (addEnvValues c.step.env env (signedFieldsMap c)))) = true := by
      apply List.all_eq_true.mpr
      intro n hn
      simpa using hbase n hn
    rw [if_pos hcond1, if_pos hcond2]
    have hfilter : (signedFieldsMap c).filter
        (fun p => decide (p.1 ∈ keysOf (addEnvValues c.step.env env (signedFieldsMap c)))) =
        signedFieldsMap c := by
      apply List.filter_eq_self.mpr
      intro p hp
      have hp1 : p.1 ∈ baseFieldNames := by
        rw [← keysOf_signedFieldsMap c]
        exact List.mem_map_of_mem Prod.fst hp
      simpa using hbase p.1 hp1
    rw [hfilter]
  -- the verify-side value map agrees with the sign-side one on every signed field
  have hreq : requireKeys (addEnvValues c.step.env verifyEnv (signedFieldsMap c))
      (keysOf (addEnvValues c.step.env env (signedFieldsMap c))) =
      .ok (addEnvValues c.step.env env (signedFieldsMap c)) := by
    apply requireKeys_eq_of_agree hsortV
    intro q hq
    have hsome := (mem_keysOf_iff_isSome _ q).mp hq
    rcases isSome_lookupStr_addEnvValues hsome with h0 | h0
    · have hqb : q ∈ baseFieldNames := by
        rw [← keysOf_signedFieldsMap c]
        exact (mem_keysOf_iff_isSome _ q).mpr h0
      rw [lookupStr_addEnvValues_of_no_envkey (fun p _ => envKey_ne_base hqb),
        lookupStr_addEnvValues_of_no_envkey (fun p _ => envKey_ne_base hqb)]
    · obtain ⟨k, v, hk, ho, rfl⟩ := h0
      have hlv : lookupStr (addEnvValues c.step.env env (signedFieldsMap c)) ("env::" ++ k) =
          some (.str v) := lookupStr_addEnvValues_mem hsenv hk ho
      have hverk : lookupStr verifyEnv k = some v := hsub k v (lookupStr_of_mem hsenv hk)
      have hlw : lookupStr (addEnvValues c.step.env verifyEnv (signedFieldsMap c))
          ("env::" ++ k) = some (.str v) :=
        lookupStr_addEnvValues_mem hsver (mem_of_lookupStr hverk) ho
      rw [hlw, hlv]
  -- assemble: Verify reduces to the ideal JWS check on identical payloads
  unfold Verify
  dsimp only
  rw [if_neg hne]
  dsimp only [CommandStepWithInvariants.toFielder]
  rw [hvff]
  dsimp only
  rw [asEnvMap_signedFieldsMap c, hreq]
  dsimp only
  have hjws : jwsVerify [key]
      (jwsSign key (canonicalPayload key.alg (addEnvValues c.step.env env (signedFieldsMap c))))
      (canonicalPayload key.alg (addEnvValues c.step.env env (signedFieldsMap c))) = true := by
    simp [jwsVerify, jwsSign]
  rw [if_pos hjws]

/-- Example command step used to instantiate the signing theorems, mirroring
the fixtures of TestSignVerifyEnv. -/
def exStep : CommandStep :=
  ⟨"llamas", [("CONTEXT", "cats"), ("DEPLOY", "0")], Value.null, Value.null, none⟩

def exCWI : CommandStepWithInvariants := ⟨exStep, "fake-repo"⟩

def exKey : SigKey := ⟨"HS256", "chartreuse"⟩

def exSignEnv : List (String × String) := [("DEPLOY", "1"), ("TAG", "v1")]

def exVerifyEnv : List (String × String) :=
  [("DEPLOY", "1"), ("MISC", "apple"), ("TAG", "v1")]

/-- The signature produced for the example step. -/
def exSig : Signature :=
  match Sign exKey exCWI.toFielder exSignEnv with
  | .ok s => s
  | .error _ => ⟨"", [], ⟨⟨"", ""⟩, ("", [])⟩⟩

/-- Witness for C1 at a concrete step, env and superset verify env. -/
theorem c1_sign_verify_env_superset_witness :
    Sign exKey exCWI.toFielder exSignEnv = .ok exSig ∧
    Verify exSig [exKey] exCWI.toFielder exVerifyEnv = .ok () := by
  have h : Sign exKey exCWI.toFielder exSignEnv = .ok exSig := rfl
  refine ⟨h, c1_sign_verify_env_superset exCWI exKey exSignEnv exVerifyEnv
    (by decide) (by decide) ?_ exSig h⟩
  intro k v hkv
  have hm := mem_of_lookupStr hkv
  simp only [exSignEnv, List.mem_cons, List.not_mem_nil, or_false, Prod.mk.injEq] at hm
  rcases hm with ⟨rfl, rfl⟩ | ⟨rfl, rfl⟩
  · rfl
  · rfl

theorem lookupStr_signedFieldsMap_envkey (c : CommandStepWithInvariants) (k : String) :
    lookupStr (signedFieldsMap c) ("env::" ++ k) = none := by
  unfold signedFieldsMap
  rw [lookupStr_cons,
    if_neg (fun hh => envKey_ne_base (show "command" ∈ baseFieldNames by decide) hh.symm),
    lookupStr_cons,
    if_neg (fun hh => envKey_ne_base (show "env" ∈ baseFieldNames by decide) hh.symm),
    lookupStr_cons,
    if_neg (fun hh => envKey_ne_base (show "matrix" ∈ baseFieldNames by decide) hh.symm),
    lookupStr_cons,
    if_neg (fun hh => envKey_ne_base (show "plugins" ∈ baseFieldNames by decide) hh.symm),
    lookupStr_cons,
    if_neg (fun hh => envKey_ne_base (show "repository_url" ∈ baseFieldNames by decide) hh.symm),
    lookupStr_nil]

theorem lookupStr_addEnvValues_skip {objEnv env : List (String × String)}
    {values : List (String × Value)} {k : String}
    (h : ∀ p ∈ env, p.1 = k → (lookupStr objEnv p.1).isSome = true) :
    lookupStr (addEnvValues objEnv env values) ("env::" ++ k) =
      lookupStr values ("env::" ++ k) := by
  induction env generalizing values with
  | nil => rfl
  | cons p rest ih =>
    rw [addEnvValues_cons]
    rw [ih (fun p2 hp2 => h p2 (List.mem_cons_of_mem _ hp2))]
    by_cases hc : (lookupStr objEnv p.1).isSome = true
    · rw [if_pos hc]
    · rw [if_neg hc, lookupStr_insertSorted]
      have hne : p.1 ≠ k := fun hh => hc (h p (List.mem_cons_self _ _) hh)
      rw [if_neg (fun hh => hne (envKey_inj hh))]

/-- C3: during signing, each pipeline env entry whose key is absent from the
step's own env appears in the signed value mapping under the env:: namespace
with the caller's value, and no env:: entry is produced for a key that the
step env already contains. -/
theorem c3_env_namespacing
    (c : CommandStepWithInvariants) (key : SigKey) (env : List (String × String))
    (hsenv : sortedKeysB env = true)
    (sig : Signature) (hsig : Sign key c.toFielder env = .ok sig)
    (k v : String) (hkv : (k, v) ∈ env) :
    (lookupStr c.step.env k = none →
      lookupStr sig.value.payload.2 ("env::" ++ k) = some (.str v)) ∧
    ((lookupStr c.step.env k).isSome = true →
      lookupStr sig.value.payload.2 ("env::" ++ k) = none) := by
  have hde : Sign key c.toFielder env =
      .ok ⟨key.alg,
        sortStrings (keysOf (addEnvValues c.step.env env (signedFieldsMap c))),
        jwsSign key (canonicalPayload key.alg
          (addEnvValues c.step.env env (signedFieldsMap c)))⟩ := rfl
  rw [hde] at hsig
  have hsig2 := (Except.ok.inj hsig).symm
  subst hsig2
  have hsortV : sortedKeysB (addEnvValues c.step.env env (signedFieldsMap c)) = true :=
    sortedKeysB_addEnvValues (sortedKeysB_signedFieldsMap c)
  have hpayload : (jwsSign key (canonicalPayload key.alg
      (addEnvValues c.step.env env (signedFieldsMap c)))).payload.2 =
      addEnvValues c.step.env env (signedFieldsMap c) :=
    canonicalize_sorted_id hsortV
  constructor
  · intro hnone
    rw [hpayload]
    exact lookupStr_addEnvValues_mem hsenv hkv hnone
  · intro hsome
    rw [hpayload]
    rw [lookupStr_addEnvValues_skip (fun p _ hp => hp ▸ hsome)]
    exact lookupStr_signedFieldsMap_envkey c k

/-- Witness for C3: in the example, TAG is absent from the step env and is
signed under the env:: namespace, while DEPLOY is present in the step env and
gains no env:: entry. -/
theorem c3_env_namespacing_witness :
    lookupStr exSig.value.payload.2 ("env::" ++ "TAG") = some (.str "v1") ∧
    lookupStr exSig.value.payload.2 ("env::" ++ "DEPLOY") = none := by
  constructor
  · exact (c3_env_namespacing exCWI exKey exSignEnv (by decide) exSig rfl "TAG" "v1"
      (by decide)).1 rfl
  · exact (c3_env_namespacing exCWI exKey exSignEnv (by decide) exSig rfl "DEPLOY" "1"
      (by decide)).2 rfl

/-- C6: every signature produced by Sign (from a well-formed value mapping)
has its signed-fields list sorted ascending, and that list is exactly the
key set of the value mapping canonicalized into the signed payload. -/
theorem c6_signed_fields_sorted_exact
    (key : SigKey) (sf : SignedFielder) (env : List (String × String))
    (values : List (String × Value))
    (hv : sf.signedFields = .ok values)
    (hsv : sortedKeysB values = true)
    (sig : Signature) (hsig : Sign key sf env = .ok sig) :
    sortedStrB sig.signedFields = true ∧
    sig.signedFields = keysOf sig.value.payload.2 := by
  unfold Sign at hsig
  rw [hv] at hsig
  dsimp only at hsig
  by_cases hnil : values = []
  · rw [if_pos hnil] at hsig
    cases hsig
  · rw [if_neg hnil] at hsig
    have hsig2 := (Except.ok.inj hsig).symm
    subst hsig2
    have hsortV : sortedKeysB
        (addEnvValues (asEnvMap (lookupStr values "env")) env values) = true :=
      sortedKeysB_addEnvValues hsv
    have hfields : sortStrings
        (keysOf (addEnvValues (asEnvMap (lookupStr values "env")) env values)) =
        keysOf (addEnvValues (asEnvMap (lookupStr values "env")) env values) :=
      sortStrings_of_sortedStr (sortedStrB_keysOf hsortV)
    constructor
    · show sortedStrB (sortStrings
        (keysOf (addEnvValues (asEnvMap (lookupStr values "env")) env values))) = true
      rw [hfields]
      exact sortedStrB_keysOf hsortV
    · show sortStrings
        (keysOf (addEnvValues (asEnvMap (lookupStr values "env")) env values)) =
        keysOf (canonicalize (addEnvValues (asEnvMap (lookupStr values "env")) env values))
      rw [hfields, canonicalize_sorted_id hsortV]

/-- Witness for C6 at the example step and env. -/
theorem c6_signed_fields_sorted_exact_witness :
    sortedStrB exSig.signedFields = true ∧
    exSig.signedFields = keysOf exSig.value.payload.2 :=
  c6_signed_fields_sorted_exact exKey exCWI.toFielder exSignEnv
    (signedFieldsMap exCWI) rfl (by decide) exSig rfl

/-- Sum type of pipeline steps as far as signing is concerned: command steps
carry their signable fields and signature slot, group steps nest a list of
steps, unknown steps retain raw contents, and the remaining kinds (wait,
input, trigger), which the SignSteps type switch skips, are collapsed into a
single passthrough constructor. -/
inductive Step where
  | command : CommandStep → Step
  | passthrough : Step
  | group : List Step → Step
  | unknown : String → Step

mutual

/-- Processing of a single step inside the loop of SignSteps in
signature/steps.go: a command step is signed together with the repository
URL invariant and its signature slot is overwritten, a group step recurses,
an unknown step aborts with the signing-refused error, and any other step is
skipped. The first component is the step state after the iteration. -/
def signStep (key : SigKey) (repoURL : String) (env : List (String × String)) :
    Step → Step × Option SignErr
  | .command c =>
    match Sign key (CommandStepWithInvariants.toFielder ⟨c, repoURL⟩) env with
    | .error e => (.command c, some e)
    | .ok sig => (.command ⟨c.command, c.env, c.plugins, c.matrix, some sig⟩, none)
  | .group gs =>
    match SignSteps key repoURL env gs with
    | (gs2, err) => (.group gs2, err)
  | .passthrough => (.passthrough, none)
  | .unknown s => (.unknown s, some .signingRefusedUnknownStepType)

/-- SignSteps from signature/steps.go: steps are processed in order and
mutated in place; the traversal stops at the first error, leaving later
steps untouched. The first component is the final state of the steps slice,
the second the returned error. -/
def SignSteps (key : SigKey) (repoURL : String) (env : List (String × String)) :
    List Step → List Step × Option SignErr
  | [] => ([], none)
  | s :: rest =>
    match signStep key repoURL env s with
    | (s2, some e) => (s2 :: rest, some e)
    | (s2, none) =>
      match SignSteps key repoURL env rest with
      | (rest2, err) => (s2 :: rest2, err)

end

mutual

/-- Whether a step is, or transitively contains, an unknown step. -/
def stepHasUnknown : Step → Bool
  | .command _ => false
  | .passthrough => false
  | .group gs => stepsHaveUnknown gs
  | .unknown _ => true

/-- Whether a step list contains an unknown step, recursing through groups. -/
def stepsHaveUnknown : List Step → Bool
  | [] => false
  | s :: rest => stepHasUnknown s || stepsHaveUnknown rest

end

/-- The signature slot of the leading command step of a step list, used to
observe the in-place mutation performed by SignSteps. -/
def headCommandSignature : List Step → Option Signature
  | Step.command c :: _ => c.signature
  | _ => none

/-- Counterexample for C2 as stated: signing a list holding a command step
followed by an unknown step fails with the signing-refused error, yet the
prior command step's signature slot, empty on entry, has been overwritten by
the failed signing operation. -/
theorem c2_counterexample_prior_step_mutated :
    (SignSteps exKey "fake-repo" []
      [Step.command exStep, Step.unknown "secret third thing"]).2 =
        some SignErr.signingRefusedUnknownStepType ∧
    headCommandSignature [Step.command exStep, Step.unknown "secret third thing"] = none ∧
    (headCommandSignature (SignSteps exKey "fake-repo" []
      [Step.command exStep, Step.unknown "secret third thing"]).1).isSome = true :=
  ⟨rfl, rfl, rfl⟩

mutual

theorem signStep_ok_of_no_unknown (key : SigKey) (repoURL : String)
    (env : List (String × String)) (s : Step) (h : stepHasUnknown s = false) :
    (signStep key repoURL env s).2 = none := by
  cases s with
  | command c =>
    have hde : Sign key (CommandStepWithInvariants.toFielder ⟨c, repoURL⟩) env =
        .ok ⟨key.alg,
          sortStrings (keysOf (addEnvValues c.env env (signedFieldsMap ⟨c, repoURL⟩))),
          jwsSign key (canonicalPayload key.alg
            (addEnvValues c.env env (signedFieldsMap ⟨c, repoURL⟩)))⟩ := rfl
    unfold signStep
    rw [hde]
  | passthrough => rfl
  | group gs =>
    unfold signStep
    cases hrp : SignSteps key repoURL env gs with
    | mk gs2 err =>
      have := signSteps_ok_of_no_unknown key repoURL env gs
        (by simpa [stepHasUnknown] using h)
      rw [hrp] at this
      simpa using this
  | unknown s => simp [stepHasUnknown] at h

theorem signSteps_ok_of_no_unknown (key : SigKey) (repoURL : String)
    (env : List (String × String)) (l : List Step) (h : stepsHaveUnknown l = false) :
    (SignSteps key repoURL env l).2 = none := by
  cases l with
  | nil => rfl
  | cons s rest =>
    simp only [stepsHaveUnknown, Bool.or_eq_false_iff] at h
    obtain ⟨h1, h2⟩ := h
    unfold SignSteps
    cases hsp : signStep key repoURL env s with
    | mk s2 e =>
      have hs := signStep_ok_of_no_unknown key repoURL env s h1
      rw [hsp] at hs
      simp only at hs
      subst hs
      cases hrp : SignSteps key repoURL env rest with
      | mk rest2 err =>
        have hr := signSteps_ok_of_no_unknown key repoURL env rest h2
        rw [hrp] at hr
        simpa using hr

end

theorem SignSteps_cons (key : SigKey) (repoURL : String) (env : List (String × String))
    (s : Step) (rest : List Step) :
    SignSteps key repoURL env (s :: rest) =
      match signStep key repoURL env s with
      | (s2, some e) => (s2 :: rest, some e)
      | (s2, none) =>
        (s2 :: (SignSteps key repoURL env rest).1, (SignSteps key repoURL env rest).2) := by
  rw [SignSteps]

/-- C2 amended: signing a step list that contains an unknown step fails with
the signing-refused error; command steps before the first unknown step have
already been signed in place (their signature slots are overwritten), while
the unknown step and everything after it are left unchanged. -/
theorem c2_amended_sign_refuses_unknown
    (key : SigKey) (repoURL : String) (env : List (String × String))
    (pre post : List Step) (u : String)
    (hpre : stepsHaveUnknown pre = false) :
    SignSteps key repoURL env (pre ++ Step.unknown u :: post) =
      ((SignSteps key repoURL env pre).1 ++ Step.unknown u :: post,
        some SignErr.signingRefusedUnknownStepType) := by
  revert hpre
  induction pre with
  | nil => intro _; rfl
  | cons s pre' ih =>
    intro hpre
    simp only [stepsHaveUnknown, Bool.or_eq_false_iff] at hpre
    obtain ⟨h1, h2⟩ := hpre
    have hih := ih h2
    cases hsp : signStep key repoURL env s with
    | mk s2 e =>
      have hs := signStep_ok_of_no_unknown key repoURL env s h1
      rw [hsp] at hs
      simp only at hs
      subst hs
      rw [List.cons_append, SignSteps_cons, hsp, hih, SignSteps_cons, hsp]
      rfl

/-- Witness for the amended C2 at a concrete step list: one command step
followed by the unknown step of the fixture. -/
theorem c2_amended_sign_refuses_unknown_witness :
    stepsHaveUnknown [Step.command exStep] = false ∧
    SignSteps exKey "fake-repo" []
        ([Step.command exStep] ++ Step.unknown "secret third thing" :: []) =
      ((SignSteps exKey "fake-repo" [] [Step.command exStep]).1 ++
          Step.unknown "secret third thing" :: [],
        some SignErr.signingRefusedUnknownStepType) :=
  ⟨rfl, c2_amended_sign_refuses_unknown exKey "fake-repo" [] [Step.command exStep] []
    "secret third thing" rfl⟩

/-- JWK key types from the jwx library that the validator distinguishes. -/
inductive KeyType where
  | RSA
  | EC
  | OctetSeq
  | OKP
  | otherKey (s : String)
deriving DecidableEq

/-- A key algorithm as returned by Algorithm() on a key: either a signature
algorithm identified by its name, or some other kind of algorithm for which
the type assertion to jwa.SignatureAlgorithm fails. -/
inductive KeyAlg where
  | sig (a : String)
  | nonSig (a : String)
deriving DecidableEq

/-- A JWK key, reduced to what jwkutil.Validate inspects: its key type, its
optional algorithm entry, and whether the jwx-level Validate call on the key
material succeeds (external library code, abstracted to a flag). -/
structure JWKKey where
  keyType : KeyType
  alg : Option KeyAlg
  materialValid : Bool
deriving DecidableEq

/-- Error kinds of jwkutil/validate.go. -/
inductive ValidateErr where
  | jwxInvalid
  | keyMissingAlg
  | invalidSigningAlgorithm
  | unsupportedSigningAlgorithm
  | unsupportedKeyType
  | unsupportedSigningAlgorithmForKeyType
deriving DecidableEq

def ValidRSAAlgorithms : List String := ["PS512"]

def ValidECAlgorithms : List String := ["ES512"]

def ValidOKPAlgorithms : List String := ["EdDSA"]

/-- ValidSigningAlgorithms from jwkutil/validate.go. -/
def ValidSigningAlgorithms : List String :=
  ValidRSAAlgorithms ++ ValidECAlgorithms ++ ValidOKPAlgorithms

/-- ValidAlgsForKeyType from jwkutil/validate.go: a Go map lookup that yields
the empty list for key types without an entry (such as OctetSeq). -/
def ValidAlgsForKeyType : KeyType → List String
  | .RSA => ["PS512"]
  | .EC => ["ES512"]
  | .OKP => ["EdDSA"]
  | _ => []

/-- The validKeyTypes list inside Validate in jwkutil/validate.go. -/
def validKeyTypes : List KeyType := [.RSA, .EC, .OctetSeq, .OKP]

/-- Validate from jwkutil/validate.go. -/
def Validate (key : JWKKey) : Except ValidateErr Unit :=
  if key.materialValid = false then .error .jwxInvalid
  else match key.alg with
    | none => .error .keyMissingAlg
    | some (.nonSig _) => .error .invalidSigningAlgorithm
    | some (.sig a) =>
      if ¬ (a ∈ ValidSigningAlgorithms) then .error .unsupportedSigningAlgorithm
      else if ¬ (key.keyType ∈ validKeyTypes) then .error .unsupportedKeyType
      else if ¬ (a ∈ ValidAlgsForKeyType key.keyType) then
        .error .unsupportedSigningAlgorithmForKeyType
      else .ok ()

theorem Validate_sig (kt : KeyType) (a : String) :
    Validate ⟨kt, some (.sig a), true⟩ =
      if ¬ (a ∈ ValidSigningAlgorithms) then .error .unsupportedSigningAlgorithm
      else if ¬ (kt ∈ validKeyTypes) then .error .unsupportedKeyType
      else if ¬ (a ∈ ValidAlgsForKeyType kt) then
        .error .unsupportedSigningAlgorithmForKeyType
      else .ok () := rfl

/-- C4: for a key whose jwx-level material validation passes, Validate
succeeds exactly when the key has a signature algorithm set and the key
type/algorithm pair is RSA with PS512, EC with ES512, or OKP with EdDSA; in
particular every HS, RS, lower PS and lower ES algorithm is rejected, since
no pair contains it. -/
theorem c4_validate_key_policy (key : JWKKey) (hmat : key.materialValid = true) :
    Validate key = .ok () ↔
      ∃ a, key.alg = some (KeyAlg.sig a) ∧
        (key.keyType, a) ∈
          [(KeyType.RSA, "PS512"), (KeyType.EC, "ES512"), (KeyType.OKP, "EdDSA")] := by
  obtain ⟨kt, alg, mat⟩ := key
  simp only at hmat
  subst hmat
  cases alg with
  | none =>
    constructor
    · intro h; exact Except.noConfusion h
    · rintro ⟨a, ha, _⟩; exact Option.noConfusion ha
  | some ka =>
    cases ka with
    | nonSig s =>
      constructor
      · intro h; exact Except.noConfusion h
      · rintro ⟨a, ha, _⟩
        injection ha with ha2
        exact KeyAlg.noConfusion ha2
    | sig a =>
      rw [Validate_sig]
      by_cases h1 : a ∈ ValidSigningAlgorithms
      · rw [if_neg (not_not_intro h1)]
        by_cases h2 : kt ∈ validKeyTypes
        · rw [if_neg (not_not_intro h2)]
          by_cases h3 : a ∈ ValidAlgsForKeyType kt
          · rw [if_neg (not_not_intro h3)]
            constructor
            · intro _
              refine ⟨a, rfl, ?_⟩
              cases kt with
              | RSA =>
                simp only [ValidAlgsForKeyType, List.mem_singleton] at h3
                subst h3; simp
              | EC =>
                simp only [ValidAlgsForKeyType, List.mem_singleton] at h3
                subst h3; simp
              | OKP =>
                simp only [ValidAlgsForKeyType, List.mem_singleton] at h3
                subst h3; simp
              | OctetSeq => simp [ValidAlgsForKeyType] at h3
              | otherKey s => simp [ValidAlgsForKeyType] at h3
            · intro _; rfl
          · rw [if_pos h3]
            constructor
            · intro h; exact Except.noConfusion h
            · rintro ⟨a2, ha2, hmem⟩
              injection ha2 with ha3
              injection ha3 with ha4
              subst ha4
              exfalso
              simp only [List.mem_cons, List.mem_singleton, Prod.mk.injEq,
                List.not_mem_nil, or_false] at hmem
              rcases hmem with ⟨rfl, rfl⟩ | ⟨rfl, rfl⟩ | ⟨rfl, rfl⟩ <;>
                exact h3 (by decide)
        · rw [if_pos h2]
          constructor
          · intro h; exact Except.noConfusion h
          · rintro ⟨a2, ha2, hmem⟩
            exfalso
            simp only [List.mem_cons, List.mem_singleton, Prod.mk.injEq,
              List.not_mem_nil, or_false] at hmem
            rcases hmem with ⟨rfl, rfl⟩ | ⟨rfl, rfl⟩ | ⟨rfl, rfl⟩ <;>
              exact h2 (by decide)
      · rw [if_pos h1]
        constructor
        · intro h; exact Except.noConfusion h
        · rintro ⟨a2, ha2, hmem⟩
          injection ha2 with ha3
          injection ha3 with ha4
          subst ha4
          exfalso
          simp only [List.mem_cons, List.mem_singleton, Prod.mk.injEq,
            List.not_mem_nil, or_false] at hmem
          rcases hmem with ⟨rfl, rfl⟩ | ⟨rfl, rfl⟩ | ⟨rfl, rfl⟩ <;>
            exact h1 (by decide)

/-- Witness for C4: an RSA key carrying PS512 validates. -/
theorem c4_validate_key_policy_witness :
    Validate ⟨KeyType.RSA, some (KeyAlg.sig "PS512"), true⟩ = .ok () :=
  (c4_validate_key_policy ⟨KeyType.RSA, some (KeyAlg.sig "PS512"), true⟩ rfl).mpr
    ⟨"PS512", rfl, by decide⟩

/-- The env package's Env: a Go map of variables plus the case-insensitivity
flag; keys are case-normalised at both insert and lookup when the Env is
case-insensitive. Translated from the env package source. -/
structure Env where
  vars : List (String × String)
  caseInsensitive : Bool
deriving DecidableEq

/-- Case normalisation from the env package: upper-case the key when the Env
is case-insensitive, otherwise leave it as written. -/
def Env.normaliseCase (e : Env) (key : String) : String :=
  if e.caseInsensitive then key.toUpper else key

/-- Set from the env package: Go map assignment under the normalised key. -/
def Env.set (e : Env) (key value : String) : Env :=
  ⟨insertSorted (e.normaliseCase key) value e.vars, e.caseInsensitive⟩

/-- Get from the env package: lookup under the normalised key. -/
def Env.get (e : Env) (key : String) : Option String :=
  lookupStr e.vars (e.normaliseCase key)

/-- New with the FromMap option from the env package: start empty and Set
every pair of the source map. -/
def Env.fromMap (caseInsensitive : Bool) (src : List (String × String)) : Env :=
  src.foldl (fun e p => e.set p.1 p.2) ⟨[], caseInsensitive⟩

/-- Modelled from the spec: the substitution engine (sections 4.4 and 6) is
not under src; this models the braced variable form and the dollar escape:
a braced variable reference is replaced by the variable's value in the env
(the empty string when unresolved), and a doubled dollar emits a literal
dollar. Recursion is by fuel, which the wrapper sets to the input length (an
upper bound on the number of steps, each of which consumes input). -/
def interpGo (e : Env) : Nat → List Char → List Char
  | 0, _ => []
  | _ + 1, [] => []
  | fuel + 1, '$' :: '$' :: rest => '$' :: interpGo e fuel rest
  | fuel + 1, '$' :: '\x7b' :: rest =>
    (match e.get ((rest.takeWhile (fun c => c != '\x7d')).asString) with
     | some v => v.data
     | none => []) ++ interpGo e fuel ((rest.dropWhile (fun c => c != '\x7d')).drop 1)
  | fuel + 1, c :: rest => c :: interpGo e fuel rest

/-- Interpolation of one string against an env. -/
def interpolateStr (e : Env) (s : String) : String :=
  (interpGo e s.data.length s.data).asString

/-- Modelled from the spec: the pipeline fragment that the interpolation
claim inspects — the ordered pipeline env mapping and the commands of the
command steps (only interpolation tests are under src). -/
structure IPipeline where
  env : List (String × String)
  commands : List String
deriving DecidableEq

/-- Ordered-map Set semantics: overwrite in place, else append at the end. -/
def setOrdered (k v : String) : List (String × String) → List (String × String)
  | [] => [(k, v)]
  | (k2, v2) :: rest => if k2 = k then (k, v) :: rest else (k2, v2) :: setOrdered k v rest

/-- Modelled from the spec: step 1 of the interpolation algorithm (section
4.4) — walk the pipeline env in declaration order, interpolating each key
and value against the current merged env; when the interpolated key is
already present in the runtime env the runtime value wins (the merged env is
left unchanged), otherwise the pair is added to the merged env; in both
cases the pipeline env entry is rewritten in place to the interpolated pair. -/
def interpolateEnvLoop (runtime : Env) :
    Env → List (String × String) → List (String × String) →
    List (String × String) × Env
  | merged, outEnv, [] => (outEnv, merged)
  | merged, outEnv, (k, v) :: rest =>
    let k2 := interpolateStr merged k
    let v2 := interpolateStr merged v
    let merged2 := if (runtime.get k2).isSome then merged else merged.set k2 v2
    interpolateEnvLoop runtime merged2 (setOrdered k2 v2 outEnv) rest

/-- Modelled from the spec: Interpolate on a pipeline (section 4.4) — build
the merged env starting from the runtime env, then transform every command
with the merged env. -/
def interpolatePipeline (runtime : Env) (p : IPipeline) : IPipeline :=
  match interpolateEnvLoop runtime runtime [] p.env with
  | (outEnv, merged) => ⟨outEnv, p.commands.map (interpolateStr merged)⟩

/-- C5: with runtime env FOO_BAR=runtime_baz and pipeline env
FOO_BAR=pipeline_baz, the step command echo on the braced FOO_BAR reference
interpolates to echo runtime_baz, while the pipeline env entry keeps its own
value pipeline_baz in the output. -/
theorem c5_runtime_env_precedence :
    interpolatePipeline (Env.fromMap false [("FOO_BAR", "runtime_baz")])
      ⟨[("FOO_BAR", "pipeline_baz")], ["echo $\x7bFOO_BAR\x7d"]⟩ =
      ⟨[("FOO_BAR", "pipeline_baz")], ["echo runtime_baz"]⟩ := rfl

/-- Dynamic YAML-decoded values (Go's any after ordered decoding): scalar
strings, integers, booleans, sequences, and string-keyed ordered mappings. -/
inductive GoVal where
  | str : String → GoVal
  | int : Int → GoVal
  | bool : Bool → GoVal
  | seq : List GoVal → GoVal
  | map : List (String × GoVal) → GoVal

/-- Error kinds relevant to Cache.UnmarshalOrdered. -/
inductive CacheErr where
  | unsupportedCacheType
  | unsupportedSrc
  | incompatibleTypes
deriving DecidableEq

/-- Natural string form of a scalar (ordered unmarshalling of a scalar into
a string target): strings stay as they are, integers and booleans print
naturally; non-scalars have no string form. -/
def goScalarString : GoVal → Option String
  | .str s => some s
  | .int n => some (toString n)
  | .bool b => some (cond b "true" "false")
  | _ => none

/-- Modelled from the spec: ordered.Unmarshal of a sequence into a string
slice (the ordered package is not under src) — each scalar element is
stringified by its natural form, and a non-scalar element fails with the
UnsupportedSrc error kind (section 4.1). -/
def unmarshalStringSlice : List GoVal → Except CacheErr (List String)
  | [] => .ok []
  | x :: rest =>
    match goScalarString x with
    | none => .error .unsupportedSrc
    | some s =>
      match unmarshalStringSlice rest with
      | .error e => .error e
      | .ok out => .ok (s :: out)

/-- The Cache struct from step_command_cache.go. -/
structure Cache where
  paths : List String
  remainingFields : List (String × GoVal)

/-- Modelled from the spec: ordered.Unmarshal of the paths entry of a cache
mapping into the string-slice field (the ordered package is not under src):
an absent entry leaves the zero value, a sequence is unmarshalled
elementwise, a mapping cannot decode into a slice (IncompatibleTypes,
section 4.1), and a scalar source for a slice target is an UnsupportedSrc
shape mismatch. -/
def unmarshalPaths : Option GoVal → Except CacheErr (List String)
  | none => .ok []
  | some (.seq xs) => unmarshalStringSlice xs
  | some (.map _) => .error .incompatibleTypes
  | some _ => .error .unsupportedSrc

/-- Cache.UnmarshalOrdered from step_command_cache.go: a scalar string is a
single path; a sequence is unmarshalled as the paths; a mapping is decoded
field-wise with unmatched keys spilling into the remaining fields; any other
source type is an unsupported cache type. -/
def Cache.unmarshalOrdered : GoVal → Except CacheErr Cache
  | .str v => .ok ⟨[v], []⟩
  | .seq v =>
    match unmarshalStringSlice v with
    | .error e => .error e
    | .ok s => .ok ⟨s, []⟩
  | .map m =>
    match unmarshalPaths (lookupStr m "paths") with
    | .error e => .error e
    | .ok paths => .ok ⟨paths, m.filter (fun p => decide (p.1 ≠ "paths"))⟩
  | _ => .error .unsupportedCacheType

theorem unmarshalStringSlice_ne_cacheType (xs : List GoVal) :
    unmarshalStringSlice xs ≠ .error .unsupportedCacheType := by
  induction xs with
  | nil => intro h; exact Except.noConfusion h
  | cons x rest ih =>
    show (match goScalarString x with
      | none => Except.error CacheErr.unsupportedSrc
      | some s =>
        match unmarshalStringSlice rest with
        | .error e => .error e
        | .ok out => .ok (s :: out)) ≠ _
    cases goScalarString x with
    | none => intro h; injection h with h2; exact CacheErr.noConfusion h2
    | some s =>
      cases hr : unmarshalStringSlice rest with
      | error e =>
        rw [hr] at ih
        intro h
        injection h with h2
        subst h2
        exact ih rfl
      | ok out => intro h; exact Except.noConfusion h

theorem unmarshalStringSlice_all_scalars {xs : List GoVal}
    (h : ∀ x ∈ xs, (goScalarString x).isSome = true) :
    unmarshalStringSlice xs = .ok (xs.filterMap goScalarString) := by
  induction xs with
  | nil => rfl
  | cons x rest ih =>
    have hx := h x (List.mem_cons_self _ _)
    have hrest := ih (fun y hy => h y (List.mem_cons_of_mem _ hy))
    show (match goScalarString x with
      | none => Except.error CacheErr.unsupportedSrc
      | some s =>
        match unmarshalStringSlice rest with
        | .error e => .error e
        | .ok out => .ok (s :: out)) = _
    cases hgx : goScalarString x with
    | none => rw [hgx] at hx; exact absurd hx (by simp)
    | some s =>
      rw [hrest]
      simp [List.filterMap_cons, hgx]

theorem unmarshalStringSlice_nonscalar {xs : List GoVal}
    (h : ∃ x ∈ xs, goScalarString x = none) :
    unmarshalStringSlice xs = .error .unsupportedSrc := by
  induction xs with
  | nil => simp at h
  | cons x rest ih =>
    show (match goScalarString x with
      | none => Except.error CacheErr.unsupportedSrc
      | some s =>
        match unmarshalStringSlice rest with
        | .error e => .error e
        | .ok out => .ok (s :: out)) = _
    cases hgx : goScalarString x with
    | none => rfl
    | some s =>
      obtain ⟨y, hy, hgy⟩ := h
      rcases List.mem_cons.mp hy with rfl | hy2
      · rw [hgx] at hgy; exact Option.noConfusion hgy
      · rw [ih ⟨y, hy2, hgy⟩]

/-- C8: Cache.UnmarshalOrdered accepts a scalar string as a single path, a
sequence of scalars as the path list with non-string scalars converted to
their natural string forms, and a mapping; a sequence holding a non-scalar
element fails with the UnsupportedSrc kind, and every other source shape
(integer or boolean scalar) fails with the unsupported-cache-type error. -/
theorem c8_cache_unmarshal_shapes :
    (∀ s, Cache.unmarshalOrdered (.str s) = .ok ⟨[s], []⟩) ∧
    (∀ xs, (∀ x ∈ xs, (goScalarString x).isSome = true) →
      Cache.unmarshalOrdered (.seq xs) = .ok ⟨xs.filterMap goScalarString, []⟩) ∧
    (∀ xs, (∃ x ∈ xs, goScalarString x = none) →
      Cache.unmarshalOrdered (.seq xs) = .error .unsupportedSrc) ∧
    (∀ m, Cache.unmarshalOrdered (.map m) ≠ .error .unsupportedCacheType) ∧
    (∀ n, Cache.unmarshalOrdered (.int n) = .error .unsupportedCacheType) ∧
    (∀ b, Cache.unmarshalOrdered (.bool b) = .error .unsupportedCacheType) := by
  refine ⟨fun s => rfl, fun xs h => ?_, fun xs h => ?_, fun m => ?_, fun n => rfl,
    fun b => rfl⟩
  · show (match unmarshalStringSlice xs with
      | .error e => Except.error e
      | .ok s => Except.ok (⟨s, []⟩ : Cache)) = _
    rw [unmarshalStringSlice_all_scalars h]
  · show (match unmarshalStringSlice xs with
      | .error e => Except.error e
      | .ok s => Except.ok (⟨s, []⟩ : Cache)) = _
    rw [unmarshalStringSlice_nonscalar h]
  · show (match unmarshalPaths (lookupStr m "paths") with
      | .error e => Except.error e
      | .ok paths => Except.ok (⟨paths, m.filter (fun p => decide (p.1 ≠ "paths"))⟩ : Cache)) ≠ _
    cases hp : unmarshalPaths (lookupStr m "paths") with
    | ok paths => intro h; exact Except.noConfusion h
    | error e =>
      intro h
      injection h with h2
      subst h2
      cases ho : lookupStr m "paths" with
      | none => rw [ho] at hp; exact Except.noConfusion hp
      | some v =>
        rw [ho] at hp
        cases v with
        | str s => injection hp with h3; exact CacheErr.noConfusion h3
        | int n => injection hp with h3; exact CacheErr.noConfusion h3
        | bool b => injection hp with h3; exact CacheErr.noConfusion h3
        | seq xs => exact unmarshalStringSlice_ne_cacheType xs hp
        | map m2 => injection hp with h3; exact CacheErr.noConfusion h3

/-- Witness for C8: a mixed scalar sequence converts its elements to their
natural string forms, as in the cache unmarshalling test. -/
theorem c8_cache_unmarshal_shapes_witness :
    Cache.unmarshalOrdered (.seq [.str "path/to/cache", .int 42, .bool true]) =
      .ok ⟨["path/to/cache", "42", "true"], []⟩ :=
  c8_cache_unmarshal_shapes.2.1 [.str "path/to/cache", .int 42, .bool true] (by decide)

/-- Modelled from the spec: the scalar strings of a sequence appearing under
a command key; a non-scalar element fails the decode. -/
def seqScalarStrings : List GoVal → Option (List String)
  | [] => some []
  | x :: rest =>
    match goScalarString x, seqScalarStrings rest with
    | some s, some out => some (s :: out)
    | _, _ => none

/-- Modelled from the spec: the scalar strings contributed by one source
value under the command or commands key — a scalar contributes itself (in
its natural string form), a sequence contributes its scalar elements in
order, anything else fails the decode. -/
def commandStrings : GoVal → Option (List String)
  | .seq xs => seqScalarStrings xs
  | v => (goScalarString v).map (fun s => [s])

/-- Modelled from the spec: all scalar values appearing under either the
command or the commands key of a step mapping, in source order (the parser
is not under src; see section 3 of the spec). -/
def collectCommandParts : List (String × GoVal) → Option (List String)
  | [] => some []
  | (k, v) :: rest =>
    if k = "command" ∨ k = "commands" then
      match commandStrings v, collectCommandParts rest with
      | some s, some out => some (s ++ out)
      | _, _ => none
    else collectCommandParts rest

/-- Concatenation with newline separators. -/
def joinNewline : List String → String
  | [] => ""
  | [s] => s
  | s :: rest => s ++ "\n" ++ joinNewline rest

/-- Modelled from the spec: the command field produced when a step mapping
is decoded as a CommandStep — the newline-separated concatenation of all
scalar values under command or commands. -/
def parseStepCommand (m : List (String × GoVal)) : Option String :=
  match collectCommandParts m with
  | none => none
  | some parts => some (joinNewline parts)

/-- YAML scalar emission styles distinguished by the claim. -/
inductive YamlScalarStyle where
  | plain
  | literalBlock
deriving DecidableEq

/-- Modelled from the spec: the YAML emitter's style choice for a command
field (the marshaller is not under src) — a command holding a newline is
emitted as a literal block scalar, a single-line command as a plain scalar. -/
def commandEmitStyle (s : String) : YamlScalarStyle :=
  if s.data.contains '\n' then .literalBlock else .plain

theorem joinNewline_cons_cons (a b : String) (rest : List String) :
    joinNewline (a :: b :: rest) = a ++ "\n" ++ joinNewline (b :: rest) := rfl

theorem contains_newline_joinNewline (a b : String) (rest : List String) :
    (joinNewline (a :: b :: rest)).data.contains '\n' = true := by
  rw [joinNewline_cons_cons]
  have hdata : (a ++ "\n" ++ joinNewline (b :: rest)).data =
      a.data ++ '\n' :: (joinNewline (b :: rest)).data := by
    simp [String.data_append]
  rw [hdata]
  simp

/-- C7: the command field of a parsed command step is the newline-separated
concatenation of all scalar values under the command or commands key; a
command assembled from two or more values contains a newline and is emitted
as a literal block scalar, while a command without a newline is emitted as a
plain scalar. -/
theorem c7_command_concat_and_style :
    (∀ m parts, collectCommandParts m = some parts →
      parseStepCommand m = some (joinNewline parts)) ∧
    (∀ m a b rest, collectCommandParts m = some (a :: b :: rest) →
      commandEmitStyle (joinNewline (a :: b :: rest)) = .literalBlock) ∧
    (∀ s, s.data.contains '\n' = false → commandEmitStyle s = .plain) := by
  refine ⟨fun m parts h => ?_, fun m a b rest h => ?_, fun s h => ?_⟩
  · show (match collectCommandParts m with
      | none => none
      | some parts => some (joinNewline parts)) = _
    rw [h]
  · show (if (joinNewline (a :: b :: rest)).data.contains '\n' then
      YamlScalarStyle.literalBlock else YamlScalarStyle.plain) = _
    rw [contains_newline_joinNewline]
    rfl
  · show (if s.data.contains '\n' then
      YamlScalarStyle.literalBlock else YamlScalarStyle.plain) = _
    rw [h]
    rfl

/-- Witness for C7: a commands sequence of two scalars parses to the
two-line command and is emitted as a literal block. -/
theorem c7_command_concat_and_style_witness :
    parseStepCommand [("commands", .seq [.str "echo foo", .str "echo bar"])] =
      some "echo foo\necho bar" ∧
    commandEmitStyle (joinNewline ["echo foo", "echo bar"]) =
      YamlScalarStyle.literalBlock :=
  ⟨c7_command_concat_and_style.1 [("commands", .seq [.str "echo foo", .str "echo bar"])]
      ["echo foo", "echo bar"] rfl,
    c7_command_concat_and_style.2.1 [("commands", .seq [.str "echo foo", .str "echo bar"])]
      "echo foo" "echo bar" [] rfl⟩

/-- The plugin source name before any version tag (the part before the first
hash character). -/
def splitName (l : List Char) : List Char := l.takeWhile (fun c => c != '#')

/-- The version tag suffix of a plugin source (from the first hash character
on, possibly empty). -/
def splitTag (l : List Char) : List Char := l.dropWhile (fun c => c != '#')

/-- The first path segment of a source: the characters before the first
slash, not crossing into the version tag. -/
def firstSegment (l : List Char) : List Char :=
  l.takeWhile (fun c => c != '/' && c != '#')

/-- Modelled from the spec: a source is returned verbatim when it already
begins with a URL scheme or drive prefix (a colon in its first segment), a
path separator or dot path, or a VCS-style authority (a dot in its first
segment, as in a host name); the empty source is also left as is
(section 3 of the spec, Plugin). -/
def returnsVerbatim (l : List Char) : Bool :=
  match l with
  | [] => true
  | c :: _ =>
    c == '/' || c == '\\' || c == '.' ||
      (firstSegment l).contains '.' || (firstSegment l).contains ':'

/-- Number of slashes in the source name. -/
def countSlashes (l : List Char) : Nat := l.countP (fun c => c == '/')

/-- Modelled from the spec: Plugin.FullSource normalization (the plugin code
is not under src) — a bare name is prefixed with the buildkite-plugins
organization on github.com and suffixed before its version tag, an org/name
form is prefixed with github.com and suffixed likewise, and anything that
already looks like a URL, path, drive or VCS authority is returned verbatim
(section 3 of the spec, Plugin). -/
def fullSourceChars (l : List Char) : List Char :=
  if returnsVerbatim l then l
  else
    match countSlashes (splitName l) with
    | 0 => "github.com/buildkite-plugins/".data ++ splitName l ++
        "-buildkite-plugin".data ++ splitTag l
    | 1 => "github.com/".data ++ splitName l ++
        "-buildkite-plugin".data ++ splitTag l
    | _ => l

/-- Plugin.FullSource on strings. -/
def FullSource (s : String) : String := (fullSourceChars s.data).asString

theorem data_asString (l : List Char) : l.asString.data = l :=
  List.toList_asString l

theorem returnsVerbatim_githubOrg (rest : List Char) :
    returnsVerbatim ("github.com/".data ++ rest) = true := rfl

theorem returnsVerbatim_githubPlugins (rest : List Char) :
    returnsVerbatim ("github.com/buildkite-plugins/".data ++ rest) = true := rfl

theorem fullSourceChars_idem (l : List Char) :
    fullSourceChars (fullSourceChars l) = fullSourceChars l := by
  by_cases h : returnsVerbatim l = true
  · have hl : fullSourceChars l = l := by
      unfold fullSourceChars
      rw [if_pos h]
    rw [hl]
    exact hl
  · have hl : fullSourceChars l =
        match countSlashes (splitName l) with
        | 0 => "github.com/buildkite-plugins/".data ++ splitName l ++
            "-buildkite-plugin".data ++ splitTag l
        | 1 => "github.com/".data ++ splitName l ++
            "-buildkite-plugin".data ++ splitTag l
        | _ => l := by
      unfold fullSourceChars
      rw [if_neg h]
    rcases hc : countSlashes (splitName l) with _ | n
    · rw [hc] at hl
      simp only at hl
      rw [hl]
      have hv : returnsVerbatim ("github.com/buildkite-plugins/".data ++
          (splitName l ++ ("-buildkite-plugin".data ++ splitTag l))) = true :=
        returnsVerbatim_githubPlugins _
      unfold fullSourceChars
      rw [List.append_assoc, List.append_assoc, if_pos hv]
    · cases n with
      | zero =>
        rw [hc] at hl
        simp only at hl
        rw [hl]
        have hv : returnsVerbatim ("github.com/".data ++
            (splitName l ++ ("-buildkite-plugin".data ++ splitTag l))) = true :=
          returnsVerbatim_githubOrg _
        unfold fullSourceChars
        rw [List.append_assoc, List.append_assoc, if_pos hv]
      | succ n2 =>
        rw [hc] at hl
        simp only at hl
        rw [hl]
        unfold fullSourceChars
        rw [if_neg h]
        rw [hc]
        rfl

/-- C9: FullSource leaves alone any source that already begins with a URL
scheme, path separator, drive prefix or VCS-style authority; it maps a bare
name into the buildkite-plugins organization on github.com and an org/name
pair under github.com, keeping the version tag and appending the
buildkite-plugin suffix; and it is idempotent on every string. -/
theorem c9_fullsource_normalization :
    (∀ s, returnsVerbatim s.data = true → FullSource s = s) ∧
    (∀ s, returnsVerbatim s.data = false → countSlashes (splitName s.data) = 0 →
      FullSource s = ("github.com/buildkite-plugins/".data ++ splitName s.data ++
        "-buildkite-plugin".data ++ splitTag s.data).asString) ∧
    (∀ s, returnsVerbatim s.data = false → countSlashes (splitName s.data) = 1 →
      FullSource s = ("github.com/".data ++ splitName s.data ++
        "-buildkite-plugin".data ++ splitTag s.data).asString) ∧
    (∀ s, FullSource (FullSource s) = FullSource s) := by
  refine ⟨fun s h => ?_, fun s h hc => ?_, fun s h hc => ?_, fun s => ?_⟩
  · show (fullSourceChars s.data).asString = s
    unfold fullSourceChars
    rw [if_pos h]
    exact String.asString_toList s
  · show (fullSourceChars s.data).asString = _
    unfold fullSourceChars
    rw [if_neg (by rw [h]; exact Bool.false_ne_true), hc]
  · show (fullSourceChars s.data).asString = _
    unfold fullSourceChars
    rw [if_neg (by rw [h]; exact Bool.false_ne_true), hc]
  · show (fullSourceChars ((fullSourceChars s.data).asString).data).asString = _
    rw [data_asString, fullSourceChars_idem]
    rfl

/-- Witness for C9: the bare name with version tag from the plugin ordering
test normalizes into the buildkite-plugins organization with the tag kept. -/
theorem c9_fullsource_normalization_witness :
    FullSource "ecr#v1.1.4" =
      "github.com/buildkite-plugins/ecr-buildkite-plugin#v1.1.4" ∧
    FullSource (FullSource "ecr#v1.1.4") = FullSource "ecr#v1.1.4" := by
  constructor
  · have h := c9_fullsource_normalization.2.1 "ecr#v1.1.4" (by decide) (by decide)
    rw [h]
    rfl
  · exact c9_fullsource_normalization.2.2.2 "ecr#v1.1.4"

/-- The coalesce helper from step_base.go: the first non-empty string, or
the empty string when every argument is empty. -/
def coalesce : List String → String
  | [] => ""
  | s :: rest => if s ≠ "" then s else coalesce rest

/-- Field extraction of the ordered unmarshaller for the key aliases: the
string value under a key, or the Go zero value (empty string) when the key
is absent. The step mapping is restricted to its string-valued entries,
which are the only ones the key aliases consult. -/
def getStrField (m : List (String × String)) (k : String) : String :=
  (lookupStr m k).getD ""

/-- The Key computation of BaseStep.UnmarshalOrdered from step_base.go:
coalesce over the values of key, id and identifier, in that order. -/
def baseStepKey (m : List (String × String)) : String :=
  coalesce [getStrField m "key", getStrField m "id", getStrField m "identifier"]

/-- C10: the decoded Key field is the first non-empty value among the source
keys key, id and identifier in that precedence order, and is empty when all
three are absent or empty. -/
theorem c10_key_alias_precedence (m : List (String × String)) :
    (getStrField m "key" ≠ "" → baseStepKey m = getStrField m "key") ∧
    (getStrField m "key" = "" → getStrField m "id" ≠ "" →
      baseStepKey m = getStrField m "id") ∧
    (getStrField m "key" = "" → getStrField m "id" = "" →
      getStrField m "identifier" ≠ "" → baseStepKey m = getStrField m "identifier") ∧
    (getStrField m "key" = "" → getStrField m "id" = "" →
      getStrField m "identifier" = "" → baseStepKey m = "") := by
  refine ⟨fun h1 => ?_, fun h1 h2 => ?_, fun h1 h2 h3 => ?_, fun h1 h2 h3 => ?_⟩
  · show (if getStrField m "key" ≠ "" then getStrField m "key" else _) = _
    rw [if_pos h1]
  · show (if getStrField m "key" ≠ "" then getStrField m "key" else
      if getStrField m "id" ≠ "" then getStrField m "id" else _) = _
    rw [if_neg (not_not_intro h1), if_pos h2]
  · show (if getStrField m "key" ≠ "" then getStrField m "key" else
      if getStrField m "id" ≠ "" then getStrField m "id" else
      if getStrField m "identifier" ≠ "" then getStrField m "identifier" else _) = _
    rw [if_neg (not_not_intro h1), if_neg (not_not_intro h2), if_pos h3]
  · show (if getStrField m "key" ≠ "" then getStrField m "key" else
      if getStrField m "id" ≠ "" then getStrField m "id" else
      if getStrField m "identifier" ≠ "" then getStrField m "identifier" else
      coalesce []) = _
    rw [if_neg (not_not_intro h1), if_neg (not_not_intro h2), if_neg (not_not_intro h3)]
    rfl

/-- Witness for C10: a step mapping carrying only the id alias decodes its
Key from id. -/
theorem c10_key_alias_precedence_witness :
    baseStepKey [("id", "ident-1")] = "ident-1" :=
  (c10_key_alias_precedence [("id", "ident-1")]).2.1 rfl (by decide)

end GoPipeline
